import Mathlib

/-!
Verification of `src/Pix2Seq-D/bit_diffusion.py`.

This file gives a shallow embedding of the parts of the bit-diffusion
implementation that the verified properties are about:

* the bit codec `decimal_to_bits` / `bits_to_decimal` (lines 334-361),
  modelled per pixel over `ℚ`: a pixel is a list of channel values, the
  channel/bit-plane flattening and the einops reshapes become list
  operations, and a PyTorch runtime shape error becomes `none`;
* the data flow of `Unet.forward` (lines 282-329), parameterised by the
  sub-module functions stored in `self.downs` / `self.ups`, so that the
  way the working value `x` is threaded through the attention calls is
  exactly the source's sequence of reassignments;
* the noise schedules and the mixing coefficients (lines 366-387) over
  `ℝ` (`torch.special.expm1 x` is `Real.exp x - 1`);
* the ancestral sampler `BitDiffusion.ddpm_sample` (lines 438-505),
  modelled per tensor element: every tensor operation in the loop body is
  elementwise, so one element's trajectory is a fold of a scalar step
  function, with the fresh normal draws supplied as an explicit stream;
* the construction-time schedule selection of `BitDiffusion.__init__`
  (lines 410-415) as an `Except`-valued constructor;
* the shape behaviour of `BitDiffusion.sample` (lines 564-569); and
* the channel bookkeeping of `Encoder.forward` (lines 627-646).
-/

namespace Pix2SeqD

/-! ### Bit codec (lines 334-361) -/

/-- Truncation toward zero on `ℚ`, the behaviour of `tensor.int()`. -/
def truncInt (x : ℚ) : ℤ := if 0 ≤ x then ⌊x⌋ else -⌊-x⌋

/-- Line 338: `(x * 255).int().clamp(0, 255)` on one element.  The result is a
natural number in `[0, 255]`. -/
def quantize255 (q : ℚ) : ℕ := (min 255 (max 0 (truncInt (q * 255)))).toNat

/-- Lines 340-346 for a single already-quantized channel value `n`: the mask is
`2 ** arange(bits-1, -1, -1)` (most significant bit first), each plane is
`((n & mask) != 0).float() * 2 - 1`, i.e. `1` or `-1`. -/
def bitPlanesOfVal (n : ℕ) (bits : ℕ) : List ℚ :=
  (List.range bits).map (fun j => if n &&& 2 ^ (bits - 1 - j) ≠ 0 then (1 : ℚ) else -1)

/-- Model of `decimal_to_bits` (lines 334-347) on one pixel.  A pixel is the list of its
channel values in `[0, 1]`; the rearrange `b c d h w -> b (c d) h w` makes the
output channel-major, bit-minor, which for one pixel is exactly `flatMap`. -/
def decimal_to_bits (channels : List ℚ) (bits : ℕ) : List ℚ :=
  channels.flatMap (fun q => bitPlanesOfVal (quantize255 q) bits)

/-- Line 355-358: the decode-side weight mask `2 ** arange(bits-1, -1, -1)`,
again most significant first; its length is the `bits` argument. -/
def bitMask (bits : ℕ) : List ℚ := (List.range bits).map (fun j => (2 : ℚ) ^ (bits - 1 - j))

/-- Line 354: `(x > 0).int()` on one element. -/
def thresholdBit (v : ℚ) : ℚ := if 0 < v then 1 else 0

/-- The elementwise product `x * mask` of one size-8 bit-plane group with the
length-`bits` mask, in the only two cases where PyTorch broadcasting of the
shapes `(8, h, w)` and `(bits, 1, 1)` is defined: `bits = 8` (elementwise) and
`bits = 1` (the single mask entry is replicated along the plane axis). -/
def broadcastMask (bits : ℕ) (grp : List ℚ) : List ℚ :=
  if bits = 8 then List.zipWith (fun a m => a * m) grp (bitMask bits)
  else grp.map (fun a => a * (bitMask bits).headD 0)

/-- Split the flattened channel/bit axis into consecutive groups of 8: the
reshape `b (c d) h w -> b c d h w` with the hard-coded `d=8` of line 359. -/
def chunk8 {α : Type} : List α → List (List α)
  | b0 :: b1 :: b2 :: b3 :: b4 :: b5 :: b6 :: b7 :: rest =>
      [b0, b1, b2, b3, b4, b5, b6, b7] :: chunk8 rest
  | _ => []

/-- Model of `bits_to_decimal` (lines 350-361) on one pixel.  `none` models a runtime
shape error: the reshape of line 359 needs the channel count divisible by the
hard-coded 8, and the broadcast of line 360 multiplies the size-8 plane axis by
the length-`bits` mask, which is only defined for `bits = 8` or `bits = 1`.
Per group the planes are thresholded, weighted, summed, divided by 255 and
clamped to `[0, 1]` (lines 354-361). -/
def bits_to_decimal (x : List ℚ) (bits : ℕ) : Option (List ℚ) :=
  if x.length % 8 = 0 then
    if bits = 8 ∨ bits = 1 then
      some ((chunk8 x).map
        (fun g => min 1 (max 0 ((broadcastMask bits (g.map thresholdBit)).sum / 255))))
    else none
  else none

/-- The value one decoded group contributes at the default bit depth 8; the
body of the `some` above specialised to `bits = 8`. -/
def decodeGroup (g : List ℚ) : ℚ :=
  min 1 (max 0 ((broadcastMask 8 (g.map thresholdBit)).sum / 255))

/-! ### Unet data flow (lines 25-31, 282-329)

`Unet.forward` is a composition of the sub-modules stored at construction
time; the claims about it concern only how the working value is threaded
through those calls, so the embedding is parameterised by the sub-module
functions.  Each down stage is the 4-tuple appended at lines 255-261, each up
stage the one at lines 271-277; time conditioning is already folded into the
block functions. -/

/-- Model of `Residual.forward` (lines 25-31): `fn(x, *args) + x`. -/
def Residual {α γ : Type} [Add α] (fn : α → Option γ → α) (x : α) (ctx : Option γ) : α :=
  fn x ctx + x

/-- One element of `self.downs` (lines 255-261): two resnet blocks, a
residually wrapped pre-normalized linear-attention module, a downsample. -/
structure DownStage (α γ : Type) where
  block1 : α → α
  block2 : α → α
  attn : α → Option γ → α
  downsample : α → α

/-- One element of `self.ups` (lines 271-277). -/
structure UpStage (α γ : Type) where
  block1 : α → α
  block2 : α → α
  attn : α → Option γ → α
  upsample : α → α

/-- The downsampling loop of `Unet.forward` (lines 300-310).  The loop body is
`x = block1(x, t); h.append(x); x = block2(x, t); x = attn(x, fpn[i]);
x = attn(x); h.append(x); x = downsample(x)`; `h.append`/`h.pop` is LIFO, so
the skip stack is modelled head-first.  The source indexes `fpn[i]` for each
stage index `i`; `zip` reproduces this for well-sized pyramids. -/
def unetDown {α γ : Type} (stages : List (DownStage α γ)) (fpn : List γ) (x0 : α) :
    α × List α :=
  (stages.zip fpn).foldl
    (fun st p =>
      let x1 := p.1.block1 st.1
      let h1 := x1 :: st.2
      let x2 := p.1.block2 x1
      let x3 := p.1.attn x2 (some p.2)
      let x4 := p.1.attn x3 none
      (p.1.downsample x4, x4 :: h1))
    (x0, [])

/-- The same loop with the context-supplied attention call of line 306
omitted, the variant the claim asserts is output-equivalent. -/
def unetDownOmitted {α γ : Type} (stages : List (DownStage α γ)) (fpn : List γ) (x0 : α) :
    α × List α :=
  (stages.zip fpn).foldl
    (fun st p =>
      let x1 := p.1.block1 st.1
      let h1 := x1 :: st.2
      let x2 := p.1.block2 x1
      let x4 := p.1.attn x2 none
      (p.1.downsample x4, x4 :: h1))
    (x0, [])

/-- Pop from the skip stack (`h.pop()`); the default is never reached when the
stack discipline matches the source's. -/
def popStack {α : Type} (dflt : α) : List α → α × List α
  | [] => (dflt, [])
  | a :: rest => (a, rest)

/-- The upsampling loop of `Unet.forward` (lines 316-324): concatenate with a
popped skip activation before each block, then a context-free attention call,
then upsample. -/
def unetUp {α γ : Type} (dflt : α) (cat : α → α → α) (stages : List (UpStage α γ))
    (x0 : α) (h0 : List α) : α × List α :=
  stages.foldl
    (fun st stage =>
      let p1 := popStack dflt st.2
      let x1 := stage.block1 (cat st.1 p1.1)
      let p2 := popStack dflt p1.2
      let x2 := stage.block2 (cat x1 p2.1)
      let x3 := stage.attn x2 none
      (stage.upsample x3, p2.2))
    (x0, h0)

/-- Model of `Unet.forward` from line 293 on (the input `x0` is the channel
concatenation of line 291, shared by the variants compared here): initial
convolution, retained copy `r`, down path, bottleneck (`mid_attn` is invoked
with `fpn[-1]`, line 313), up path, final concatenation with `r`, final block
and projection. -/
def unetForward {α γ : Type} (dflt : α) (cat : α → α → α) (initConv : α → α)
    (downs : List (DownStage α γ)) (mid1 : α → α) (midAttn : α → Option γ → α)
    (mid2 : α → α) (ups : List (UpStage α γ)) (finalBlock : α → α) (finalConv : α → α)
    (fpn : List γ) (x0 : α) : α :=
  let x := initConv x0
  let r := x
  let d := unetDown downs fpn x
  let xm := mid2 (midAttn (mid1 d.1) fpn.getLast?)
  let u := unetUp dflt cat ups xm d.2
  finalConv (finalBlock (cat u.1 r))

/-- The forward pass with the down path's context-supplied attention calls
omitted. -/
def unetForwardOmitted {α γ : Type} (dflt : α) (cat : α → α → α) (initConv : α → α)
    (downs : List (DownStage α γ)) (mid1 : α → α) (midAttn : α → Option γ → α)
    (mid2 : α → α) (ups : List (UpStage α γ)) (finalBlock : α → α) (finalConv : α → α)
    (fpn : List γ) (x0 : α) : α :=
  let x := initConv x0
  let r := x
  let d := unetDownOmitted downs fpn x
  let xm := mid2 (midAttn (mid1 d.1) fpn.getLast?)
  let u := unetUp dflt cat ups xm d.2
  finalConv (finalBlock (cat u.1 r))

/-- Concrete attention instance for the refutation: a `Residual`-wrapped
module whose inner function returns the context (0 when absent). -/
def exAttn : ℤ → Option ℤ → ℤ := Residual (fun _ c => c.getD 0)

/-- Concrete down stage built from `exAttn` with identity blocks. -/
def exDownStage : DownStage ℤ ℤ := ⟨id, id, exAttn, id⟩

/-- Concrete up stage built from `exAttn` with identity blocks. -/
def exUpStage : UpStage ℤ ℤ := ⟨id, id, exAttn, id⟩

/-! ### Noise schedules and mixing coefficients (lines 366-387) -/

/-- The clamped logarithm helper of lines 366-367:
`log(t, eps) = torch.log(t.clamp(min=eps))`. -/
noncomputable def log (t : ℝ) (eps : ℝ) : ℝ := Real.log (max t eps)

/-- Model of `beta_linear_log_snr` (lines 377-378):
`-log(expm1(1e-4 + 10 * t**2))`, with `expm1 x = exp x - 1`. -/
noncomputable def beta_linear_log_snr (t : ℝ) : ℝ :=
  -Real.log (Real.exp (1e-4 + 10 * t ^ 2) - 1)

/-- The cosine schedule's angle `(t + s) / (1 + s) * math.pi * 0.5` with the
default `s = 0.008` (line 381). -/
noncomputable def cosineAngle (t : ℝ) : ℝ := (t + 0.008) / (1 + 0.008) * Real.pi * 0.5

/-- Model of `alpha_cosine_log_snr` (lines 381-383):
`-log(cos(angle) ** -2 - 1, eps=1e-5)`.  The value is extended-real: at a true
zero of the cosine the float computation of `cos ** -2` overflows to `+inf`
and the negated logarithm is `-inf`, modelled as `⊥`; everywhere else the
value is real.  (Lean's total-field convention `0⁻¹ = 0` would instead inject
a junk finite value at the pole, which matches neither the mathematics nor
the source.) -/
noncomputable def alpha_cosine_log_snr (t : ℝ) : EReal :=
  if Real.cos (cosineAngle t) = 0 then ⊥
  else ((-log ((Real.cos (cosineAngle t) ^ 2)⁻¹ - 1) 1e-5 : ℝ) : EReal)

/-- Model of `torch.sigmoid`. -/
noncomputable def sigmoid (x : ℝ) : ℝ := 1 / (1 + Real.exp (-x))

/-- Model of `log_snr_to_alpha_sigma` (lines 386-387):
`(sqrt(sigmoid(log_snr)), sqrt(sigmoid(-log_snr)))`. -/
noncomputable def log_snr_to_alpha_sigma (log_snr : ℝ) : ℝ × ℝ :=
  (Real.sqrt (sigmoid log_snr), Real.sqrt (sigmoid (-log_snr)))

/-! ### Ancestral sampler (lines 431-505), per tensor element -/

/-- Model of `torch.clamp(x, lo, hi)` on `ℝ`. -/
noncomputable def clampR (x lo hi : ℝ) : ℝ := min (max x lo) hi

/-- One iteration of the `ddpm_sample` loop (lines 458-503) for one tensor
element.  `logSnrFn` is the installed `self.log_snr`, `selfTimeDifference` is
the constructor-stored `self.time_difference` that line 462 subtracts,
`model` is the denoising network restricted to this element (arguments: image
value, noise conditioning, previous `x_start`), `draw` is this step's fresh
standard-normal draw.  Returns the updated image value and the clamped
`x_start` kept for self-conditioning. -/
noncomputable def ddpm_step (logSnrFn : ℝ → ℝ) (selfTimeDifference bitScale : ℝ)
    (model : ℝ → ℝ → Option ℝ → ℝ) (xStartPrev : Option ℝ)
    (img t tnext draw : ℝ) : ℝ × ℝ :=
  let time_next := max (tnext - selfTimeDifference) 0
  let noise_cond := logSnrFn t
  let x_start := clampR (model img noise_cond xStartPrev) (-bitScale) bitScale
  let log_snr := logSnrFn t
  let log_snr_next := logSnrFn time_next
  let alpha := (log_snr_to_alpha_sigma log_snr).1
  let alpha_next := (log_snr_to_alpha_sigma log_snr_next).1
  let sigma_next := (log_snr_to_alpha_sigma log_snr_next).2
  let c := -(Real.exp (log_snr - log_snr_next) - 1)
  let mean := alpha_next * (img * (1 - c) / alpha + c * x_start)
  let variance := sigma_next ^ 2 * c
  let log_variance := log variance 1e-20
  let noise := if 0 < time_next then draw else 0
  (mean + Real.exp (0.5 * log_variance) * noise, x_start)

/-- The posterior mean of the same iteration (line 491), written out with the
same subexpressions of lines 462-491. -/
noncomputable def ddpm_posterior_mean (logSnrFn : ℝ → ℝ) (selfTimeDifference bitScale : ℝ)
    (model : ℝ → ℝ → Option ℝ → ℝ) (xStartPrev : Option ℝ)
    (img t tnext : ℝ) : ℝ :=
  let time_next := max (tnext - selfTimeDifference) 0
  let noise_cond := logSnrFn t
  let x_start := clampR (model img noise_cond xStartPrev) (-bitScale) bitScale
  let log_snr := logSnrFn t
  let log_snr_next := logSnrFn time_next
  let alpha := (log_snr_to_alpha_sigma log_snr).1
  let alpha_next := (log_snr_to_alpha_sigma log_snr_next).1
  let c := -(Real.exp (log_snr - log_snr_next) - 1)
  alpha_next * (img * (1 - c) / alpha + c * x_start)

/-- Model of `get_sampling_timesteps` (lines 431-436) for one batch element:
`timesteps + 1` points linearly spaced from 1 down to 0, paired consecutively. -/
noncomputable def sampling_time_pairs (timesteps : ℕ) : List (ℝ × ℝ) :=
  let times := (List.range (timesteps + 1)).map (fun i => 1 - (i : ℝ) / (timesteps : ℝ))
  times.zip times.tail

/-- Model of `ddpm_sample` (lines 438-505) for one tensor element, starting from the
initial (already resized) noise value `img0`.  Line 442 resolves the
`time_difference` parameter against the stored default into a local that the
loop then never reads: line 462 subtracts `self.time_difference`.  The local
binding is kept to mirror the source. -/
noncomputable def ddpm_sample (logSnrFn : ℝ → ℝ) (selfTimeDifference bitScale : ℝ)
    (model : ℝ → ℝ → Option ℝ → ℝ) (timesteps : ℕ)
    (time_difference : Option ℝ) (img0 : ℝ) (draws : ℕ → ℝ) : ℝ :=
  let td := time_difference.getD selfTimeDifference
  ((sampling_time_pairs timesteps).enum.foldl
    (fun st p =>
      let r := ddpm_step logSnrFn selfTimeDifference bitScale model st.2 st.1 p.2.1 p.2.2
        (draws p.1)
      (r.1, some r.2))
    (img0, (none : Option ℝ))).1

/-! ### Construction (lines 390-425) -/

/-- A height/width pair, the interface of the source's size objects
(`image_size.height`, `image_size.width`). -/
structure Size where
  height : ℕ
  width : ℕ

/-- The configuration state `BitDiffusion.__init__` stores (lines 403-425);
the denoising network itself is not part of the selection logic. -/
structure BitDiffusionState where
  image_size : Size
  embedding_size : Size
  log_snr : ℝ → EReal
  timesteps : ℕ
  use_ddim : Bool
  time_difference : ℝ
  bit_scale : ℝ

/-- The linear schedule as an extended-real-valued function, for storage in
`BitDiffusionState` alongside the cosine schedule (its values are all real). -/
noncomputable def beta_linear_log_snr_e (t : ℝ) : EReal := ((beta_linear_log_snr t : ℝ) : EReal)

/-- The schedule selection of `BitDiffusion.__init__` (lines 410-415):
`"linear"` installs the linear schedule, `"cosine"` the cosine schedule, and
any other name raises `ValueError(f'invalid noise schedule {noise_schedule}')`.
No other argument is inspected. -/
noncomputable def bitDiffusionInit (image_size embedding_size : Size) (timesteps : ℕ)
    (use_ddim : Bool) (noise_schedule : String) (time_difference bit_scale : ℝ) :
    Except String BitDiffusionState :=
  if noise_schedule = "linear" then
    .ok ⟨image_size, embedding_size, beta_linear_log_snr_e, timesteps, use_ddim,
      time_difference, bit_scale⟩
  else if noise_schedule = "cosine" then
    .ok ⟨image_size, embedding_size, alpha_cosine_log_snr, timesteps, use_ddim,
      time_difference, bit_scale⟩
  else .error ("invalid noise schedule " ++ noise_schedule)

/-! ### Shape behaviour of the samplers and of `sample` (lines 438-450,
507-519, 564-569) -/

/-- A tensor shape `(batch, channels, height, width)`. -/
structure TShape where
  b : ℕ
  c : ℕ
  h : ℕ
  w : ℕ
deriving DecidableEq

/-- Model of `torchvision.transforms.Resize(embedding.shape[2:])`: replaces the two
spatial dimensions. -/
def resizeShape (s : TShape) (hw : ℕ × ℕ) : TShape := ⟨s.b, s.c, hw.1, hw.2⟩

/-- Shape behaviour of `ddpm_sample` (lines 446-505): the image is allocated
at `shape` (line 446), resized to the embedding's spatial size (line 450), and
then updated `timesteps` times by a loop whose tensor operations are all
elementwise or broadcasts of per-batch scalars, hence shape-preserving. -/
def ddpm_sample_shape (shape : TShape) (embSpatial : ℕ × ℕ) (timesteps : ℕ) : TShape :=
  (fun s : TShape => s)^[timesteps] (resizeShape shape embSpatial)

/-- Shape behaviour of `ddim_sample` (lines 515-562): identical resize and
shape-preserving loop. -/
def ddim_sample_shape (shape : TShape) (embSpatial : ℕ × ℕ) (timesteps : ℕ) : TShape :=
  (fun s : TShape => s)^[timesteps] (resizeShape shape embSpatial)

/-- Shape behaviour of `bits_to_decimal` (lines 350-361): the channel axis is
regrouped by the hard-coded 8 and summed out, so `c` becomes `c / 8`; spatial
dimensions are untouched; `none` under the same shape conditions as the
element-level model. -/
def bits_to_decimal_shape (s : TShape) (bits : ℕ) : Option TShape :=
  if s.c % 8 = 0 ∧ (bits = 8 ∨ bits = 1) then some ⟨s.b, s.c / 8, s.h, s.w⟩ else none

/-- Model of `BitDiffusion.sample` (lines 564-569): the sampler is selected by
`use_ddim`, the initial shape is `(batch_size, channels, embedding_size.height,
embedding_size.width)` — note: the stored `embedding_size`, not `image_size` —
and the result is the pair `(bits_to_decimal(pred), pred)`.  `embShape` is the
shape of the embedding tensor actually passed in, which need not agree with
the stored `embedding_size`. -/
def sample_shape (st : BitDiffusionState) (batch channels : ℕ) (embShape : TShape)
    (bits : ℕ) : Option (TShape × TShape) :=
  let shape : TShape := ⟨batch, channels, st.embedding_size.height, st.embedding_size.width⟩
  let pred := if st.use_ddim then ddim_sample_shape shape (embShape.h, embShape.w) st.timesteps
    else ddpm_sample_shape shape (embShape.h, embShape.w) st.timesteps
  (bits_to_decimal_shape pred bits).map (fun dec => (dec, pred))

/-! ### Encoder (lines 627-646) -/

/-- A feature map: channel count and spatial size.  The claims about the
encoder concern only this bookkeeping. -/
structure Feature where
  channels : ℕ
  h : ℕ
  w : ℕ
deriving DecidableEq

/-- A 2d convolution's static configuration (stride 1). -/
structure Conv2dSpec where
  inC : ℕ
  outC : ℕ
  kernel : ℕ
  padding : ℕ

/-- Applying a stride-1 convolution to a feature map: defined when the channel
counts agree and the padded input is at least as large as the kernel;
otherwise a runtime error (`none`). -/
def applyConv2d (c : Conv2dSpec) (f : Feature) : Option Feature :=
  if f.channels = c.inC ∧ c.kernel ≤ f.h + 2 * c.padding ∧ c.kernel ≤ f.w + 2 * c.padding then
    some ⟨c.outC, f.h + 2 * c.padding - c.kernel + 1, f.w + 2 * c.padding - c.kernel + 1⟩
  else none

/-- The four channel-compression convolutions of `Encoder.__init__`
(lines 632-637): kernel sizes 5,3,3,3, paddings 2,1,1,1, output channels
32,32,64,128, each expecting 256 input channels. -/
def encoderConvs : List Conv2dSpec :=
  [⟨256, 32, 5, 2⟩, ⟨256, 32, 3, 1⟩, ⟨256, 64, 3, 1⟩, ⟨256, 128, 3, 1⟩]

/-- Option-valued map used for the chained convolution applications. -/
def mapOption {α β : Type} (f : α → Option β) : List α → Option (List β)
  | [] => some []
  | a :: as =>
    match f a, mapOption f as with
    | some b, some bs => some (b :: bs)
    | _, _ => none

/-- Model of `Encoder.forward` (lines 642-646): drop the backbone's last (pooled)
level, apply the compression convolutions pairwise (`zip` truncates exactly
like Python's `zip`), and append the last retained level unmodified
(`features[-1]`; an empty feature list would raise, hence `none`). -/
def encoderForward (backbone : List Feature) : Option (List Feature) :=
  let features := backbone.dropLast
  match features.getLast? with
  | none => none
  | some last =>
    (mapOption (fun p => applyConv2d p.1 p.2) (encoderConvs.zip features)).map
      (fun compressed => compressed ++ [last])

/-! ### Helper lemmas -/

theorem exists_four_of_length {α : Type} (l : List α) (h : l.length = 4) :
    ∃ a0 a1 a2 a3, l = [a0, a1, a2, a3] := by
  rcases l with _ | ⟨a0, l⟩
  · simp at h
  rcases l with _ | ⟨a1, l⟩
  · simp at h
  rcases l with _ | ⟨a2, l⟩
  · simp at h
  rcases l with _ | ⟨a3, l⟩
  · simp at h
  rcases l with _ | ⟨a4, l⟩
  · exact ⟨a0, a1, a2, a3, rfl⟩
  · simp at h

theorem exists_eight_cons {α : Type} (l : List α) (h : 8 ≤ l.length) :
    ∃ b0 b1 b2 b3 b4 b5 b6 b7 rest, l = b0 :: b1 :: b2 :: b3 :: b4 :: b5 :: b6 :: b7 :: rest := by
  rcases l with _ | ⟨b0, l⟩
  · simp at h
  rcases l with _ | ⟨b1, l⟩
  · simp at h
  rcases l with _ | ⟨b2, l⟩
  · simp at h
  rcases l with _ | ⟨b3, l⟩
  · simp at h
  rcases l with _ | ⟨b4, l⟩
  · simp at h
  rcases l with _ | ⟨b5, l⟩
  · simp at h
  rcases l with _ | ⟨b6, l⟩
  · simp at h
  rcases l with _ | ⟨b7, l⟩
  · simp at h
  exact ⟨b0, b1, b2, b3, b4, b5, b6, b7, l, rfl⟩

theorem chunk8_nil {α : Type} : chunk8 ([] : List α) = [] := rfl

theorem chunk8_length_of_mul {α : Type} :
    ∀ (k : ℕ) (x : List α), x.length = 8 * k → (chunk8 x).length = k := by
  intro k
  induction k with
  | zero =>
    intro x hx
    have : x = [] := List.length_eq_zero.mp (by omega)
    subst this
    rfl
  | succ k ih =>
    intro x hx
    obtain ⟨b0, b1, b2, b3, b4, b5, b6, b7, rest, rfl⟩ :=
      exists_eight_cons x (by omega)
    have hr : rest.length = 8 * k := by
      simp at hx
      omega
    simp [chunk8, ih rest hr]

theorem iterate_id_tshape (n : ℕ) (s : TShape) : (fun x : TShape => x)^[n] s = s := by
  rw [show (fun x : TShape => x) = id from rfl, Function.iterate_id]
  rfl

/-! ### C2: the cross-attention call in the down path -/

/-- C2 counterexample: the claim says the forward pass equals the variant with
the context-supplied attention call omitted for every input; at this concrete
module instantiation (identity blocks, `Residual`-wrapped attention returning
its context) the two forward passes differ. -/
theorem C2_counterexample :
    unetForward 0 (fun a b => a + b) id [exDownStage] id exAttn id [exUpStage] id id
        [(1 : ℤ)] 0 ≠
      unetForwardOmitted 0 (fun a b => a + b) id [exDownStage] id exAttn id [exUpStage] id id
        [(1 : ℤ)] 0 := by
  decide

/-- C2 (amended): in the downsampling stage the cross-attention result is not
discarded — the working value is reassigned to it and then fed into the
context-free attention call (`attn (attn x (some ctx)) none`), so the
context-supplied call can influence the network's output: there are module
instances and inputs on which the forward pass and the omitted-call variant
disagree. -/
theorem C2_cross_attention_feeds_self_attention :
    (∀ (α γ : Type) (stage : DownStage α γ) (c : γ) (x : α),
        (unetDown [stage] [c] x).1 =
          stage.downsample (stage.attn (stage.attn (stage.block2 (stage.block1 x)) (some c)) none)) ∧
    (∃ (down : DownStage ℤ ℤ) (up : UpStage ℤ ℤ) (attnMid : ℤ → Option ℤ → ℤ) (ctx : ℤ),
        unetForward 0 (fun a b => a + b) id [down] id attnMid id [up] id id [ctx] 0 ≠
          unetForwardOmitted 0 (fun a b => a + b) id [down] id attnMid id [up] id id [ctx] 0) := by
  constructor
  · intro α γ stage c x
    rfl
  · exact ⟨exDownStage, exUpStage, exAttn, 1, by decide⟩

/-! ### C3: the hard-coded plane count in `bits_to_decimal` -/

/-- C3 counterexample: the claim says an input with `c*8` channels is decoded
to `c` channels whatever `bits` is; at `bits = 4` an 8-channel input is not
decoded at all — the length-4 weight mask cannot broadcast against the
hard-coded size-8 plane axis, a runtime shape error. -/
theorem C3_counterexample : bits_to_decimal (List.replicate 8 (1 : ℚ)) 4 = none := by
  simp [bits_to_decimal]

/-- C3 (amended): the channel/bit-plane reshape always uses the hard-coded
group size 8, ignoring `bits`: whenever decoding succeeds the output has
`length / 8` channels independent of `bits`.  But decoding an input with
`c*8` channels succeeds only for `bits = 8` (and, via mask broadcasting,
`bits = 1`); for every other `bits` the plane weighting is a shape error. -/
theorem C3_reshape_hard_codes_eight (x : List ℚ) (bits : ℕ) (hlen : x.length % 8 = 0) :
    ((bits = 8 ∨ bits = 1) →
      ∃ out, bits_to_decimal x bits = some out ∧ out.length = x.length / 8) ∧
    (¬(bits = 8 ∨ bits = 1) → bits_to_decimal x bits = none) := by
  constructor
  · intro hb
    refine ⟨_, by rw [bits_to_decimal, if_pos hlen, if_pos hb], ?_⟩
    rw [List.length_map]
    exact chunk8_length_of_mul (x.length / 8) x (by omega)
  · intro hb
    rw [bits_to_decimal, if_pos hlen, if_neg hb]

/-- Witness for C3's amended statement at a concrete 8-channel input. -/
theorem C3_reshape_hard_codes_eight_witness :
    (((List.replicate 8 (1 : ℚ)).length % 8 = 0) ∧
      (((8 : ℕ) = 8 ∨ (8 : ℕ) = 1) →
        ∃ out, bits_to_decimal (List.replicate 8 (1 : ℚ)) 8 = some out ∧
          out.length = (List.replicate 8 (1 : ℚ)).length / 8)) := by
  refine ⟨by simp, ?_⟩
  exact (C3_reshape_hard_codes_eight (List.replicate 8 (1 : ℚ)) 8 (by simp)).1

/-! ### C6: terminal determinism of the ancestral sampler -/

/-- C6: for a batch element whose offset-adjusted `t_next` is 0, the
`torch.where` of lines 497-501 selects the zero noise tensor, so the added
noise term vanishes and the updated image is exactly the posterior mean. -/
theorem C6_terminal_step_is_posterior_mean (logSnrFn : ℝ → ℝ)
    (selfTimeDifference bitScale : ℝ) (model : ℝ → ℝ → Option ℝ → ℝ)
    (xStartPrev : Option ℝ) (img t tnext draw : ℝ)
    (h : max (tnext - selfTimeDifference) 0 = 0) :
    (ddpm_step logSnrFn selfTimeDifference bitScale model xStartPrev img t tnext draw).1 =
      ddpm_posterior_mean logSnrFn selfTimeDifference bitScale model xStartPrev img t tnext := by
  unfold ddpm_step ddpm_posterior_mean
  rw [h]
  simp

/-- Witness for C6 at a concrete final step (`t_next = 0`, no offset). -/
theorem C6_terminal_step_is_posterior_mean_witness :
    (ddpm_step (fun v => v) 0 1 (fun a b _ => a + b) none 2 1 0 7).1 =
      ddpm_posterior_mean (fun v => v) 0 1 (fun a b _ => a + b) none 2 1 0 :=
  C6_terminal_step_is_posterior_mean (fun v => v) 0 1 (fun a b _ => a + b) none 2 1 0 7
    (by simp)

/-! ### C7: construction-time schedule validation -/

/-- C7: `BitDiffusion` construction installs the linear schedule for
`"linear"`, the cosine schedule for `"cosine"`, and fails — with the
descriptive message naming the offending value — exactly on every other
schedule name, whatever all the other constructor arguments are (no other
validation happens at construction). -/
theorem C7_init_schedule_validation (is es : Size) (ts : ℕ) (ud : Bool) (td bs : ℝ) :
    bitDiffusionInit is es ts ud "linear" td bs =
      .ok ⟨is, es, beta_linear_log_snr_e, ts, ud, td, bs⟩ ∧
    bitDiffusionInit is es ts ud "cosine" td bs =
      .ok ⟨is, es, alpha_cosine_log_snr, ts, ud, td, bs⟩ ∧
    ∀ s : String,
      bitDiffusionInit is es ts ud s td bs = .error ("invalid noise schedule " ++ s) ↔
        ¬(s = "linear" ∨ s = "cosine") := by
  refine ⟨rfl, rfl, ?_⟩
  intro s
  by_cases hl : s = "linear"
  · subst hl
    simp [bitDiffusionInit]
  · by_cases hc : s = "cosine"
    · subst hc
      simp [bitDiffusionInit]
    · simp [bitDiffusionInit, hl, hc]

/-! ### C8: sampler output resolution -/

/-- C8: `sample()` produces a decoded image and a raw bit tensor whose spatial
dimensions both equal the embedding tensor's spatial dimensions, for every
stored nominal `image_size`/`embedding_size` (in particular when they differ
from the embedding's actual size), because both samplers resize the initial
noise to the embedding's spatial shape. -/
theorem C8_sample_resolution_follows_embedding (st : BitDiffusionState)
    (batch channels : ℕ) (embShape : TShape) (bits : ℕ)
    (hc : 8 ∣ channels) (hb : bits = 8 ∨ bits = 1) :
    ∃ dec pred : TShape,
      sample_shape st batch channels embShape bits = some (dec, pred) ∧
      dec.h = embShape.h ∧ dec.w = embShape.w ∧
      pred.h = embShape.h ∧ pred.w = embShape.w := by
  obtain ⟨k, rfl⟩ := hc
  refine ⟨⟨batch, 8 * k / 8, embShape.h, embShape.w⟩,
    ⟨batch, 8 * k, embShape.h, embShape.w⟩, ?_, rfl, rfl, rfl, rfl⟩
  rcases hb with rfl | rfl <;>
    cases hud : st.use_ddim <;>
      simp [sample_shape, ddim_sample_shape, ddpm_sample_shape, hud, iterate_id_tshape,
        resizeShape, bits_to_decimal_shape, Nat.mul_mod_right]

/-- Witness for C8 with a configured image size 512×512, a stored nominal
embedding size 25×25, and an actual embedding of spatial size 13×17. -/
theorem C8_sample_resolution_follows_embedding_witness :
    ∃ dec pred : TShape,
      sample_shape ⟨⟨512, 512⟩, ⟨25, 25⟩, beta_linear_log_snr_e, 1000, false, 0, 1⟩ 2 24
          ⟨2, 24, 13, 17⟩ 8 = some (dec, pred) ∧
      dec.h = (⟨2, 24, 13, 17⟩ : TShape).h ∧ dec.w = (⟨2, 24, 13, 17⟩ : TShape).w ∧
      pred.h = (⟨2, 24, 13, 17⟩ : TShape).h ∧ pred.w = (⟨2, 24, 13, 17⟩ : TShape).w :=
  C8_sample_resolution_follows_embedding
    ⟨⟨512, 512⟩, ⟨25, 25⟩, beta_linear_log_snr_e, 1000, false, 0, 1⟩ 2 24
    ⟨2, 24, 13, 17⟩ 8 (by decide) (Or.inl rfl)

/-! ### C10: the `time_difference` parameter of `ddpm_sample` is dead -/

/-- C10: `ddpm_sample` returns the same result for any two values of its
`time_difference` argument, all other inputs and draws equal: line 442 binds
the resolved parameter to a local that the loop never reads, because line 462
subtracts the constructor-stored `self.time_difference` instead. -/
theorem C10_ddpm_sample_ignores_time_difference_argument (logSnrFn : ℝ → ℝ)
    (selfTimeDifference bitScale : ℝ) (model : ℝ → ℝ → Option ℝ → ℝ)
    (timesteps : ℕ) (td1 td2 : Option ℝ) (img0 : ℝ) (draws : ℕ → ℝ) :
    ddpm_sample logSnrFn selfTimeDifference bitScale model timesteps td1 img0 draws =
      ddpm_sample logSnrFn selfTimeDifference bitScale model timesteps td2 img0 draws := rfl

/-! ### C9: encoder channel compression -/

/-- C9: on a backbone pyramid whose four retained levels (after dropping the
coarsest, pooled level) all have 256 channels, the encoder output has five
levels with channel counts exactly `[32, 32, 64, 128, 256]`, and its last
element is the deepest retained backbone level passed through unmodified. -/
theorem C9_encoder_channel_compression (backbone : List Feature)
    (hlen : backbone.dropLast.length = 4)
    (hmem : ∀ f ∈ backbone.dropLast, f.channels = 256 ∧ 1 ≤ f.h ∧ 1 ≤ f.w) :
    ∃ out, encoderForward backbone = some out ∧
      out.length = 5 ∧
      out.map (fun f => f.channels) = [32, 32, 64, 128, 256] ∧
      out.getLast? = backbone.dropLast.getLast? := by
  obtain ⟨f0, f1, f2, f3, hfe⟩ := exists_four_of_length _ hlen
  obtain ⟨hc0, hh0, hw0⟩ := hmem f0 (by rw [hfe]; simp)
  obtain ⟨hc1, hh1, hw1⟩ := hmem f1 (by rw [hfe]; simp)
  obtain ⟨hc2, hh2, hw2⟩ := hmem f2 (by rw [hfe]; simp)
  obtain ⟨hc3, hh3, hw3⟩ := hmem f3 (by rw [hfe]; simp)
  have ha0h : 5 ≤ f0.h + 2 * 2 := by omega
  have ha0w : 5 ≤ f0.w + 2 * 2 := by omega
  have ha1h : 3 ≤ f1.h + 2 * 1 := by omega
  have ha1w : 3 ≤ f1.w + 2 * 1 := by omega
  have ha2h : 3 ≤ f2.h + 2 * 1 := by omega
  have ha2w : 3 ≤ f2.w + 2 * 1 := by omega
  have ha3h : 3 ≤ f3.h + 2 * 1 := by omega
  have ha3w : 3 ≤ f3.w + 2 * 1 := by omega
  refine ⟨[⟨32, f0.h + 2 * 2 - 5 + 1, f0.w + 2 * 2 - 5 + 1⟩,
    ⟨32, f1.h + 2 * 1 - 3 + 1, f1.w + 2 * 1 - 3 + 1⟩,
    ⟨64, f2.h + 2 * 1 - 3 + 1, f2.w + 2 * 1 - 3 + 1⟩,
    ⟨128, f3.h + 2 * 1 - 3 + 1, f3.w + 2 * 1 - 3 + 1⟩, f3], ?_, rfl, ?_, ?_⟩
  · simp [encoderForward, hfe, encoderConvs, mapOption, applyConv2d,
      hc0, hc1, hc2, hc3, ha0h, ha0w, ha1h, ha1w, ha2h, ha2w, ha3h, ha3w]
  · simp [hc3]
  · rw [hfe]
    rfl

/-- Witness for C9 at a concrete five-level pyramid. -/
theorem C9_encoder_channel_compression_witness :
    ∃ out, encoderForward
        [⟨256, 64, 64⟩, ⟨256, 32, 32⟩, ⟨256, 16, 16⟩, ⟨256, 8, 8⟩, ⟨11, 4, 4⟩] = some out ∧
      out.length = 5 ∧
      out.map (fun f => f.channels) = [32, 32, 64, 128, 256] ∧
      out.getLast? = ([⟨256, 64, 64⟩, ⟨256, 32, 32⟩, ⟨256, 16, 16⟩, ⟨256, 8, 8⟩,
        ⟨11, 4, 4⟩] : List Feature).dropLast.getLast? :=
  C9_encoder_channel_compression
    [⟨256, 64, 64⟩, ⟨256, 32, 32⟩, ⟨256, 16, 16⟩, ⟨256, 8, 8⟩, ⟨11, 4, 4⟩]
    (by decide) (by decide)

/-! ### C1: bit-codec round trip at bit depth 8 -/

theorem bitPlanesOfVal_length (n bits : ℕ) : (bitPlanesOfVal n bits).length = bits := by
  simp [bitPlanesOfVal]

theorem quantize255_lt (q : ℚ) : quantize255 q < 256 := by
  have h : min 255 (max 0 (truncInt (q * 255))) ≤ 255 := min_le_left _ _
  unfold quantize255
  omega

/-- The weighted sum of the eight thresholded bit planes of `n < 256`
reconstructs `n` (binary expansion, most significant plane first). -/
theorem testBit_sum_q (n : ℕ) (hn : n < 256) :
    (if n.testBit 7 then (1 : ℚ) else 0) * 2 ^ 7 +
      ((if n.testBit 6 then (1 : ℚ) else 0) * 2 ^ 6 +
      ((if n.testBit 5 then (1 : ℚ) else 0) * 2 ^ 5 +
      ((if n.testBit 4 then (1 : ℚ) else 0) * 2 ^ 4 +
      ((if n.testBit 3 then (1 : ℚ) else 0) * 2 ^ 3 +
      ((if n.testBit 2 then (1 : ℚ) else 0) * 2 ^ 2 +
      ((if n.testBit 1 then (1 : ℚ) else 0) * 2 ^ 1 +
      ((if n.testBit 0 then (1 : ℚ) else 0) * 2 ^ 0 + 0))))))) = (n : ℚ) := by
  have key : ∀ k : ℕ, (if n.testBit k then (1 : ℚ) else 0) * 2 ^ k =
      ((2 ^ k * (n / 2 ^ k % 2) : ℕ) : ℚ) := by
    intro k
    rcases Nat.mod_two_eq_zero_or_one (n / 2 ^ k) with h | h <;>
      simp [Nat.testBit_to_div_mod, h]
  rw [key 7, key 6, key 5, key 4, key 3, key 2, key 1, key 0]
  have hnat : 2 ^ 7 * (n / 2 ^ 7 % 2) + (2 ^ 6 * (n / 2 ^ 6 % 2) +
      (2 ^ 5 * (n / 2 ^ 5 % 2) + (2 ^ 4 * (n / 2 ^ 4 % 2) +
      (2 ^ 3 * (n / 2 ^ 3 % 2) + (2 ^ 2 * (n / 2 ^ 2 % 2) +
      (2 ^ 1 * (n / 2 ^ 1 % 2) + 2 ^ 0 * (n / 2 ^ 0 % 2))))))) = n := by
    simp only [show (2 : ℕ) ^ 7 = 128 from rfl, show (2 : ℕ) ^ 6 = 64 from rfl,
      show (2 : ℕ) ^ 5 = 32 from rfl, show (2 : ℕ) ^ 4 = 16 from rfl,
      show (2 : ℕ) ^ 3 = 8 from rfl, show (2 : ℕ) ^ 2 = 4 from rfl,
      show (2 : ℕ) ^ 1 = 2 from rfl, show (2 : ℕ) ^ 0 = 1 from rfl]
    omega
  have hq := congrArg (fun m : ℕ => (m : ℚ)) hnat
  push_cast at hq
  push_cast
  linarith [hq]

/-- Decoding the eight bit planes of a quantized value `n < 256` yields
exactly `n / 255`. -/
theorem decodeGroup_planes (n : ℕ) (hn : n < 256) :
    decodeGroup (bitPlanesOfVal n 8) = (n : ℚ) / 255 := by
  have hplanes : bitPlanesOfVal n 8 =
      [(if n &&& 2 ^ 7 ≠ 0 then (1 : ℚ) else -1), (if n &&& 2 ^ 6 ≠ 0 then (1 : ℚ) else -1),
       (if n &&& 2 ^ 5 ≠ 0 then (1 : ℚ) else -1), (if n &&& 2 ^ 4 ≠ 0 then (1 : ℚ) else -1),
       (if n &&& 2 ^ 3 ≠ 0 then (1 : ℚ) else -1), (if n &&& 2 ^ 2 ≠ 0 then (1 : ℚ) else -1),
       (if n &&& 2 ^ 1 ≠ 0 then (1 : ℚ) else -1), (if n &&& 2 ^ 0 ≠ 0 then (1 : ℚ) else -1)] :=
    rfl
  have hmask : bitMask 8 = [(2 : ℚ) ^ 7, 2 ^ 6, 2 ^ 5, 2 ^ 4, 2 ^ 3, 2 ^ 2, 2 ^ 1, 2 ^ 0] := rfl
  have hthr : ∀ (c : Prop) (inst : Decidable c),
      thresholdBit (if c then (1 : ℚ) else -1) = if c then 1 else 0 := by
    intro c inst
    by_cases h : c <;> simp [h, thresholdBit]
  have hand : ∀ k, (n &&& 2 ^ k ≠ 0) = (n.testBit k = true) := by
    intro k
    apply propext
    simp [Nat.and_two_pow]
  unfold decodeGroup broadcastMask
  rw [if_pos rfl, hplanes, hmask]
  simp only [List.map_cons, List.map_nil, List.zipWith_cons_cons, List.zipWith_nil_right,
    List.sum_cons, List.sum_nil, hthr, hand]
  rw [testBit_sum_q n hn]
  have h0 : (0 : ℚ) ≤ (n : ℚ) / 255 := by positivity
  have h1 : (n : ℚ) / 255 ≤ 1 := by
    rw [div_le_one (by norm_num)]
    exact_mod_cast (by omega : n ≤ 255)
  rw [max_eq_right h0, min_eq_right h1]

theorem decimal_to_bits_cons (q : ℚ) (rest : List ℚ) (bits : ℕ) :
    decimal_to_bits (q :: rest) bits =
      bitPlanesOfVal (quantize255 q) bits ++ decimal_to_bits rest bits := by
  simp [decimal_to_bits]

theorem chunk8_append8 (l rest : List ℚ) (h : l.length = 8) :
    chunk8 (l ++ rest) = l :: chunk8 rest := by
  obtain ⟨b0, b1, b2, b3, b4, b5, b6, b7, tail, rfl⟩ := exists_eight_cons l (by omega)
  have htail : tail = [] := by simpa using h
  subst htail
  simp [chunk8]

theorem chunk8_decimal_to_bits (chans : List ℚ) :
    chunk8 (decimal_to_bits chans 8) =
      chans.map (fun q => bitPlanesOfVal (quantize255 q) 8) := by
  induction chans with
  | nil => rfl
  | cons q rest ih =>
    rw [decimal_to_bits_cons, chunk8_append8 _ _ (bitPlanesOfVal_length _ 8), ih,
      List.map_cons]

theorem decimal_to_bits_length (chans : List ℚ) :
    (decimal_to_bits chans 8).length = 8 * chans.length := by
  induction chans with
  | nil => rfl
  | cons q rest ih =>
    rw [decimal_to_bits_cons, List.length_append, bitPlanesOfVal_length, ih,
      List.length_cons]
    omega

theorem bits_to_decimal_of_encode (chans : List ℚ) :
    bits_to_decimal (decimal_to_bits chans 8) 8 =
      some (chans.map (fun q => decodeGroup (bitPlanesOfVal (quantize255 q) 8))) := by
  rw [bits_to_decimal, if_pos (by rw [decimal_to_bits_length]; omega), if_pos (Or.inl rfl),
    chunk8_decimal_to_bits, List.map_map]
  rfl

theorem round_close (q : ℚ) (h0 : 0 ≤ q) (h1 : q ≤ 1) :
    |((quantize255 q : ℕ) : ℚ) / 255 - q| ≤ 1 / 255 := by
  have hcast : ((quantize255 q : ℕ) : ℚ) = ((⌊q * 255⌋ : ℤ) : ℚ) := by
    unfold quantize255 truncInt
    rw [if_pos (by positivity)]
    have hf0 : (0 : ℤ) ≤ ⌊q * 255⌋ := Int.floor_nonneg.mpr (by positivity)
    have hf255 : ⌊q * 255⌋ ≤ 255 := by
      have hq255 : q * 255 ≤ 255 := by nlinarith
      calc ⌊q * 255⌋ ≤ ⌊(255 : ℚ)⌋ := Int.floor_le_floor hq255
      _ = 255 := by norm_num
    rw [max_eq_right hf0, min_eq_right hf255]
    exact_mod_cast congrArg (fun z : ℤ => (z : ℚ)) (Int.toNat_of_nonneg hf0)
  rw [hcast]
  have hle : ((⌊q * 255⌋ : ℤ) : ℚ) ≤ q * 255 := Int.floor_le _
  have hgt : q * 255 < ((⌊q * 255⌋ : ℤ) : ℚ) + 1 := Int.lt_floor_add_one _
  rw [abs_le]
  constructor <;> linarith

/-- C1: at bit depth 8, decoding the encoding of a pixel whose channel values
lie in `[0, 1]` succeeds and reproduces every channel value to within `1/255`
(the quantization error of `(x * 255).int()`). -/
theorem C1_bit_codec_round_trip (chans : List ℚ) (hq : ∀ q ∈ chans, 0 ≤ q ∧ q ≤ 1) :
    ∃ out : List ℚ, bits_to_decimal (decimal_to_bits chans 8) 8 = some out ∧
      out.length = chans.length ∧
      ∀ i, i < chans.length → |out.getD i 0 - chans.getD i 0| ≤ 1 / 255 := by
  refine ⟨_, bits_to_decimal_of_encode chans, by simp, ?_⟩
  intro i hi
  have hmap : ∀ (l : List ℚ) (j : ℕ), j < l.length →
      (l.map (fun q => decodeGroup (bitPlanesOfVal (quantize255 q) 8))).getD j 0 =
        decodeGroup (bitPlanesOfVal (quantize255 (l.getD j 0)) 8) := by
    intro l
    induction l with
    | nil =>
      intro j hj
      simp at hj
    | cons a as ih =>
      intro j hj
      cases j with
      | zero => rfl
      | succ j => exact ih j (by simpa using hj)
  rw [hmap chans i hi]
  have hmem : chans.getD i 0 ∈ chans := by
    rw [List.getD_eq_getElem chans 0 hi]
    exact List.getElem_mem hi
  obtain ⟨h0, h1⟩ := hq _ hmem
  rw [decodeGroup_planes _ (quantize255_lt _)]
  exact round_close _ h0 h1

/-- Witness for C1 at the concrete pixel `[0, 1]`. -/
theorem C1_bit_codec_round_trip_witness :
    ∃ out : List ℚ, bits_to_decimal (decimal_to_bits [(0 : ℚ), 1] 8) 8 = some out ∧
      out.length = ([(0 : ℚ), 1]).length ∧
      ∀ i, i < ([(0 : ℚ), 1]).length →
        |out.getD i 0 - ([(0 : ℚ), 1]).getD i 0| ≤ 1 / 255 :=
  C1_bit_codec_round_trip [0, 1] (by decide)

/-! ### C5: signal/noise coefficient identity -/

/-- C5: for every log-SNR value, the pair returned by
`log_snr_to_alpha_sigma` satisfies `alpha^2 + sigma^2 = 1`. -/
theorem C5_alpha_sq_add_sigma_sq (v : ℝ) :
    (log_snr_to_alpha_sigma v).1 ^ 2 + (log_snr_to_alpha_sigma v).2 ^ 2 = 1 := by
  unfold log_snr_to_alpha_sigma
  show Real.sqrt (sigmoid v) ^ 2 + Real.sqrt (sigmoid (-v)) ^ 2 = 1
  have h1 : (0 : ℝ) ≤ sigmoid v := by unfold sigmoid; positivity
  have h2 : (0 : ℝ) ≤ sigmoid (-v) := by unfold sigmoid; positivity
  rw [Real.sq_sqrt h1, Real.sq_sqrt h2]
  unfold sigmoid
  rw [neg_neg]
  have hv : (0 : ℝ) < Real.exp v := Real.exp_pos v
  have hnv : (0 : ℝ) < Real.exp (-v) := Real.exp_pos (-v)
  have hprod : Real.exp (-v) * Real.exp v = 1 := by
    rw [← Real.exp_add]
    simp
  field_simp
  nlinarith [hprod]

/-! ### C4: strict monotonicity of the noise schedules -/

theorem beta_linear_strictAnti (t1 t2 : ℝ) (h0 : 0 ≤ t1) (h12 : t1 < t2) :
    beta_linear_log_snr t2 < beta_linear_log_snr t1 := by
  unfold beta_linear_log_snr
  have hlt : (1e-4 : ℝ) + 10 * t1 ^ 2 < 1e-4 + 10 * t2 ^ 2 := by nlinarith
  have hexp1 : (0 : ℝ) < Real.exp (1e-4 + 10 * t1 ^ 2) - 1 := by
    have h := Real.add_one_le_exp (1e-4 + 10 * t1 ^ 2)
    nlinarith
  have hexp2 : Real.exp (1e-4 + 10 * t1 ^ 2) - 1 < Real.exp (1e-4 + 10 * t2 ^ 2) - 1 := by
    have h := Real.exp_lt_exp.mpr hlt
    linarith
  have h := Real.log_lt_log hexp1 hexp2
  linarith

theorem cosineAngle_lt_cosineAngle (t1 t2 : ℝ) (h : t1 < t2) :
    cosineAngle t1 < cosineAngle t2 := by
  unfold cosineAngle
  have hc : (0 : ℝ) < Real.pi * 0.5 / (1 + 0.008) := by positivity
  calc (t1 + 0.008) / (1 + 0.008) * Real.pi * 0.5
      = (t1 + 0.008) * (Real.pi * 0.5 / (1 + 0.008)) := by ring
    _ < (t2 + 0.008) * (Real.pi * 0.5 / (1 + 0.008)) :=
        mul_lt_mul_of_pos_right (by linarith) hc
    _ = (t2 + 0.008) / (1 + 0.008) * Real.pi * 0.5 := by ring

theorem cosineAngle_one : cosineAngle 1 = Real.pi / 2 := by
  unfold cosineAngle
  have h : (1 : ℝ) + 0.008 ≠ 0 := by norm_num
  field_simp
  ring

theorem cosineAngle_pos (t : ℝ) (h : 0 ≤ t) : 0 < cosineAngle t := by
  unfold cosineAngle
  have h2 : (0 : ℝ) < (t + 0.008) / (1 + 0.008) := div_pos (by linarith) (by norm_num)
  exact mul_pos (mul_pos h2 Real.pi_pos) (by norm_num)

theorem cosineAngle_lt_pi_div_two (t : ℝ) (h : t < 1) : cosineAngle t < Real.pi / 2 := by
  have h2 := cosineAngle_lt_cosineAngle t 1 h
  rwa [cosineAngle_one] at h2

theorem cosineAngle_le_pi_div_two (t : ℝ) (h : t ≤ 1) : cosineAngle t ≤ Real.pi / 2 := by
  rcases lt_or_eq_of_le h with h2 | h2
  · exact le_of_lt (cosineAngle_lt_pi_div_two t h2)
  · subst h2
    rw [cosineAngle_one]

theorem cos_cosineAngle_pos (t : ℝ) (h0 : 0 ≤ t) (h1 : t < 1) :
    0 < Real.cos (cosineAngle t) := by
  apply Real.cos_pos_of_mem_Ioo
  constructor
  · linarith [cosineAngle_pos t h0, Real.pi_pos]
  · exact cosineAngle_lt_pi_div_two t h1

theorem cosineAngle_mem_Icc (t : ℝ) (h0 : 0 ≤ t) (h1 : t ≤ 1) :
    cosineAngle t ∈ Set.Icc 0 Real.pi := by
  constructor
  · exact (cosineAngle_pos t h0).le
  · linarith [cosineAngle_le_pi_div_two t h1, Real.pi_pos]

/-- The cosine schedule's clamp is inactive on `[0, 1)`: already at `t = 0`
the logarithm's input `cos(angle)^(-2) - 1` exceeds the floor `1e-5`. -/
theorem cosineAngle_zero_bound : 1e-5 < (Real.cos (cosineAngle 0) ^ 2)⁻¹ - 1 := by
  set x := cosineAngle 0 with hx
  have hxval : x = Real.pi / 252 := by
    rw [hx]
    unfold cosineAngle
    rw [show ((0 : ℝ) + 0.008) / (1 + 0.008) = 1 / 126 by norm_num]
    ring
  have hpl : (3.14 : ℝ) < Real.pi := Real.pi_gt_d2
  have hpu : Real.pi < 3.15 := Real.pi_lt_d2
  have hxl : (3.14 / 252 : ℝ) < x := by rw [hxval]; linarith
  have hxu : x < (3.15 / 252 : ℝ) := by rw [hxval]; linarith
  have hxpos : (0 : ℝ) < x := by linarith
  have hx1 : |x| ≤ 1 := by
    rw [abs_le]
    constructor <;> linarith
  have hcb := Real.cos_bound hx1
  rw [abs_le, abs_of_pos hxpos] at hcb
  have hcos_ub : Real.cos x ≤ 1 - x ^ 2 / 2 + x ^ 4 * (5 / 96) := by linarith [hcb.2]
  have hx2 : (3.14 / 252 : ℝ) ^ 2 ≤ x ^ 2 :=
    pow_le_pow_left₀ (by norm_num) (le_of_lt hxl) 2
  have hx4 : x ^ 4 ≤ (3.15 / 252 : ℝ) ^ 4 :=
    pow_le_pow_left₀ (le_of_lt hxpos) (le_of_lt hxu) 4
  have hB : Real.cos x ≤ 1 - (3.14 / 252 : ℝ) ^ 2 / 2 + (3.15 / 252 : ℝ) ^ 4 * (5 / 96) := by
    linarith
  have hcpos : 0 < Real.cos x := cos_cosineAngle_pos 0 le_rfl (by norm_num)
  have hsq : Real.cos x ^ 2 ≤
      (1 - (3.14 / 252 : ℝ) ^ 2 / 2 + (3.15 / 252 : ℝ) ^ 4 * (5 / 96)) ^ 2 :=
    pow_le_pow_left₀ (le_of_lt hcpos) hB 2
  have hnum : ((1 - (3.14 / 252 : ℝ) ^ 2 / 2 + (3.15 / 252 : ℝ) ^ 4 * (5 / 96)) ^ 2) *
      (1 + 1e-5) < 1 := by norm_num
  have hc2pos : 0 < Real.cos x ^ 2 := by positivity
  have hkey : Real.cos x ^ 2 * (1 + 1e-5) < 1 := by nlinarith
  have hinv : 1 + 1e-5 < (Real.cos x ^ 2)⁻¹ := by
    calc 1 + 1e-5 = Real.cos x ^ 2 * (1 + 1e-5) * (Real.cos x ^ 2)⁻¹ := by
          field_simp
      _ < 1 * (Real.cos x ^ 2)⁻¹ := mul_lt_mul_of_pos_right hkey (inv_pos.mpr hc2pos)
      _ = (Real.cos x ^ 2)⁻¹ := one_mul _
  linarith

theorem alpha_cosine_real_lt (t1 t2 : ℝ) (h0 : 0 ≤ t1) (h12 : t1 < t2) (h21 : t2 < 1) :
    -log ((Real.cos (cosineAngle t2) ^ 2)⁻¹ - 1) 1e-5 <
      -log ((Real.cos (cosineAngle t1) ^ 2)⁻¹ - 1) 1e-5 := by
  have h02 : 0 ≤ t2 := le_trans h0 (le_of_lt h12)
  have hc1 : 0 < Real.cos (cosineAngle t1) := cos_cosineAngle_pos t1 h0 (lt_trans h12 h21)
  have hc2 : 0 < Real.cos (cosineAngle t2) := cos_cosineAngle_pos t2 h02 h21
  have hcc : Real.cos (cosineAngle t2) < Real.cos (cosineAngle t1) :=
    Real.strictAntiOn_cos (cosineAngle_mem_Icc t1 h0 (by linarith))
      (cosineAngle_mem_Icc t2 h02 (le_of_lt h21))
      (cosineAngle_lt_cosineAngle t1 t2 h12)
  have hsq : Real.cos (cosineAngle t2) ^ 2 < Real.cos (cosineAngle t1) ^ 2 := by nlinarith
  have hinv : (Real.cos (cosineAngle t1) ^ 2)⁻¹ < (Real.cos (cosineAngle t2) ^ 2)⁻¹ := by
    gcongr
  have hmono : Real.cos (cosineAngle t1) ≤ Real.cos (cosineAngle 0) := by
    rcases eq_or_lt_of_le h0 with h | h
    · rw [← h]
    · exact le_of_lt (Real.strictAntiOn_cos (cosineAngle_mem_Icc 0 le_rfl (by norm_num))
        (cosineAngle_mem_Icc t1 h0 (by linarith))
        (cosineAngle_lt_cosineAngle 0 t1 h))
  have hc0 : 0 < Real.cos (cosineAngle 0) := cos_cosineAngle_pos 0 le_rfl (by norm_num)
  have hsq0 : Real.cos (cosineAngle t1) ^ 2 ≤ Real.cos (cosineAngle 0) ^ 2 := by nlinarith
  have hinv0 : (Real.cos (cosineAngle 0) ^ 2)⁻¹ ≤ (Real.cos (cosineAngle t1) ^ 2)⁻¹ := by
    gcongr
  have ha1 : 1e-5 < (Real.cos (cosineAngle t1) ^ 2)⁻¹ - 1 := by
    have hz := cosineAngle_zero_bound
    linarith
  have ha2 : 1e-5 < (Real.cos (cosineAngle t2) ^ 2)⁻¹ - 1 := by linarith
  unfold log
  rw [max_eq_left (le_of_lt ha1), max_eq_left (le_of_lt ha2)]
  have hlog := Real.log_lt_log
    (by linarith : (0 : ℝ) < (Real.cos (cosineAngle t1) ^ 2)⁻¹ - 1)
    (by linarith : (Real.cos (cosineAngle t1) ^ 2)⁻¹ - 1 <
      (Real.cos (cosineAngle t2) ^ 2)⁻¹ - 1)
  linarith

theorem alpha_cosine_strictAnti (t1 t2 : ℝ) (h0 : 0 ≤ t1) (h12 : t1 < t2) (h21 : t2 ≤ 1) :
    alpha_cosine_log_snr t2 < alpha_cosine_log_snr t1 := by
  have hc1 : 0 < Real.cos (cosineAngle t1) :=
    cos_cosineAngle_pos t1 h0 (lt_of_lt_of_le h12 h21)
  unfold alpha_cosine_log_snr
  rw [if_neg (ne_of_gt hc1)]
  rcases lt_or_eq_of_le h21 with h | h
  · have hc2 : 0 < Real.cos (cosineAngle t2) := cos_cosineAngle_pos t2 (by linarith) h
    rw [if_neg (ne_of_gt hc2)]
    exact_mod_cast alpha_cosine_real_lt t1 t2 h0 h12 h
  · subst h
    rw [show Real.cos (cosineAngle 1) = 0 by rw [cosineAngle_one]; exact Real.cos_pi_div_two]
    rw [if_pos rfl]
    exact EReal.bot_lt_coe _

/-- C4: both noise schedules are strictly decreasing in `t` on `[0, 1]`: the
linear one over `ℝ`, the cosine one as an extended-real function (the 1e-5
floor never binds on `[0, 1)`, and at `t = 1` the cosine schedule diverges to
`-∞`). -/
theorem C4_noise_schedules_strictly_decreasing (t1 t2 : ℝ) (h0 : 0 ≤ t1) (h12 : t1 < t2)
    (h21 : t2 ≤ 1) :
    beta_linear_log_snr t2 < beta_linear_log_snr t1 ∧
      alpha_cosine_log_snr t2 < alpha_cosine_log_snr t1 :=
  ⟨beta_linear_strictAnti t1 t2 h0 h12, alpha_cosine_strictAnti t1 t2 h0 h12 h21⟩

/-- Witness for C4 at the endpoints `t1 = 0`, `t2 = 1`. -/
theorem C4_noise_schedules_strictly_decreasing_witness :
    beta_linear_log_snr 1 < beta_linear_log_snr 0 ∧
      alpha_cosine_log_snr 1 < alpha_cosine_log_snr 0 :=
  C4_noise_schedules_strictly_decreasing 0 1 (le_refl 0) zero_lt_one (le_refl 1)

end Pix2SeqD
